import Mathlib

/-!
Verification of the playback-queue manager in `src/util/tracklist.py`
(class `PlayList`) against its natural-language specification.

The class is embedded shallowly:

* machine state (`track_list`, `track_index`, `current_track`, `is_paused`)
  becomes the structure `State`;
* every method becomes a function `State → ... → result × State` (the second
  component is the post-state built from the method's assignments);
* a method that can raise (`IndexError` on a list subscript, `AttributeError`
  on `None.field`) returns an `Except Unit` result; the paired post-state
  records the assignments executed before the raise;
* wall-clock readings (`time.time()`) are passed in explicitly as a rational
  `now`; all track timing fields are rationals;
* Python list subscripting with an `int` index (wrap-around for negative
  indexes, `IndexError` out of range) is modelled by `pyGet`.

`track_index` is modelled as `Nat`: the source only ever writes `0` to it or
increments it, and the duck-typed `id` field is modelled as a `String` whose
truthiness test `if track.id:` becomes `id ≠ ""`.

The `current_track` reference is modelled as an owned copy rather than an
alias into `track_list` (the spec's §9 recommended model); no claim proved
here observes the difference, because none of them relates the timing fields
of a stored entry to those of `current` after a transport call.
-/

namespace PlayList

/-- A queued/playable media item.  Fields are those the source reads or
writes: `id`, `title`, `owner`, `time` (nominal duration), `start` (epoch
timestamp playback began), `pause` (elapsed-time snapshot when paused). -/
structure Track where
  id : String
  title : String
  owner : String
  time : ℚ
  start : ℚ
  pause : ℚ
deriving DecidableEq, Repr

/-- The `PlayList.__init__` state: `track_list`, `track_index`,
`current_track`, `is_paused`. -/
structure State where
  track_list : List Track
  track_index : Nat
  current_track : Option Track
  is_paused : Bool
deriving DecidableEq, Repr

/-- The freshly constructed `PlayList()` object. -/
def initState : State := ⟨[], 0, none, false⟩

/-- Python list subscripting `l[i]` with an `int` index: non-negative indexes
are direct, indexes in `[-len, -1]` wrap around, anything else raises
`IndexError` (modelled as `none`). -/
def pyGet {α : Type} (l : List α) (i : Int) : Option α :=
  if 0 ≤ i then l[i.toNat]?
  else if 0 ≤ i + l.length then l[(i + l.length).toNat]?
  else none

/-- Property `elapsed`: elapsed play time of the current track at wall-clock
`now`.  Pure read; the returned state is the receiver. -/
def elapsed (s : State) (now : ℚ) : ℚ × State :=
  match s.current_track with
  | some c =>
    if s.is_paused then (c.pause, s)
    else
      let e := now - c.start
      if e > c.time then (0, s) else (e, s)
  | none => (0, s)

/-- Property `remaining`: remaining play time of the current track. -/
def remaining (s : State) (now : ℚ) : ℚ × State :=
  match s.current_track with
  | some c => (c.time - (elapsed s now).1, s)
  | none => (0, s)

/-- Property `has_active_track`: paused counts as active, otherwise active
iff `elapsed` is strictly positive. -/
def has_active_track (s : State) (now : ℚ) : Bool × State :=
  if s.is_paused then (true, s)
  else if (elapsed s now).1 = 0 then (false, s)
  else if (elapsed s now).1 > 0 then (true, s)
  else (false, s)

/-- Property `next_track` (the spec's `advance()`): on a non-empty list with
`track_index <= len(track_list)` it subscripts `track_list[track_index]`;
the subscript raises `IndexError` when `track_index = len(track_list)`
(modelled by `Except.error ()`, no assignment has happened yet); on success
it sets the fetched track as current, stamps its `start` with `now` (the
list entry is the same Python object, so it is stamped too), increments
`track_index` and returns the track. -/
def next_track (s : State) (now : ℚ) : Except Unit (Option Track) × State :=
  if s.track_list.length > 0 then
    if s.track_index ≤ s.track_list.length then
      match s.track_list[s.track_index]? with
      | none => (.error (), s)
      | some t =>
        let t' := { t with start := now }
        (.ok (some t'),
          { s with
            track_list := s.track_list.set s.track_index t'
            current_track := some t'
            track_index := s.track_index + 1 })
    else (.ok none, s)
  else (.ok none, s)

/-- Property `is_last_track`: `none` on an empty list, otherwise whether
`track_index >= len(track_list)`. -/
def is_last_track (s : State) : Option Bool × State :=
  (if s.track_list.length > 0 then some (decide (s.track_index ≥ s.track_list.length)) else none,
   s)

/-- Property `queue`: `none` on an empty list, otherwise the pair
`(len(track_list), len(track_list) - track_index)` (the subtraction is a
Python `int` subtraction, hence `Int`-valued). -/
def queue (s : State) : Option (Nat × Int) × State :=
  (if s.track_list.length > 0 then
     some (s.track_list.length, (s.track_list.length : Int) - (s.track_index : Int))
   else none,
   s)

/-- Method `start(owner, track)`: un-pauses, installs `track` as current,
stamps `owner` and `start := now`, returns the track. -/
def start (s : State) (owner : String) (track : Track) (now : ℚ) : Track × State :=
  let s1 := if s.is_paused then { s with is_paused := false } else s
  let t' := { track with owner := owner, start := now }
  (t', { s1 with current_track := some t' })

/-- Method `play(offset)`: un-pauses, rewinds `current.start` to
`now - offset`, returns `remaining`.  With no current track the attribute
write raises (`Except.error`), after the un-pause has already happened. -/
def play (s : State) (offset now : ℚ) : Except Unit ℚ × State :=
  let s1 := if s.is_paused then { s with is_paused := false } else s
  match s1.current_track with
  | none => (.error (), s1)
  | some c =>
    let s2 := { s1 with current_track := some { c with start := now - offset } }
    (.ok (remaining s2 now).1, s2)

/-- Method `replay()`: un-pauses, restamps `current.start := now`, returns
the current track; raises when there is no current track. -/
def replay (s : State) (now : ℚ) : Except Unit Track × State :=
  let s1 := if s.is_paused then { s with is_paused := false } else s
  match s1.current_track with
  | none => (.error (), s1)
  | some c =>
    let c' := { c with start := now }
    (.ok c', { s1 with current_track := some c' })

/-- Method `pause(offset)`: sets `is_paused := true` first, then stores the
pause snapshot into `current.pause` (explicit `offset` when non-zero, else
`now - current.start`); with no current track the snapshot write raises
after the flag was already set. -/
def pause (s : State) (offset now : ℚ) : Except Unit Unit × State :=
  let s1 := { s with is_paused := true }
  match s1.current_track with
  | none => (.error (), s1)
  | some c =>
    if offset ≠ 0 then (.ok (), { s1 with current_track := some { c with pause := offset } })
    else (.ok (), { s1 with current_track := some { c with pause := now - c.start } })

/-- Method `stop()`: clears `is_paused`, then zeroes `current.start` and
`current.pause`; with no current track the field write raises after the flag
was already cleared. -/
def stop (s : State) : Except Unit Unit × State :=
  let s1 := { s with is_paused := false }
  match s1.current_track with
  | none => (.error (), s1)
  | some c => (.ok (), { s1 with current_track := some { c with start := 0, pause := 0 } })

/-- Method `add(owner, track)`: rejects a track whose `id` is falsy
(`if track.id:` on the string id), otherwise stamps the owner, appends to
`track_list` and returns the track. -/
def add (s : State) (owner : String) (track : Track) : Option Track × State :=
  if track.id ≠ "" then
    let t' := { track with owner := owner }
    (some t', { s with track_list := s.track_list ++ [t'] })
  else (none, s)

/-- Method `add_list(owner, tracks)`: calls `add` on each element in order
(the `len(tracks) > 0` guard is the source's). -/
def add_list (s : State) (owner : String) (tracks : List Track) : State :=
  if 0 < tracks.length then tracks.foldl (fun st t => (add st owner t).2) s else s

/-- Method `clear()`: on a non-empty list empties it, resets `track_index`
to 0 and returns true; otherwise returns false leaving the state alone. -/
def clear (s : State) : Bool × State :=
  if s.track_list.length > 0 then (true, { s with track_list := [], track_index := 0 })
  else (false, s)

/-- The `for i in range(start_index, len(track_list))` loop of `get_tracks`:
appends `(i, track_list[i])` while the appended counter `ic` satisfies
`ic <= amount - 1`. -/
def getTracksLoop (tl : List Track) (amount : Int) (i ic : Nat) : List (Nat × Track) :=
  if h : i < tl.length then
    if (ic : Int) ≤ amount - 1 then
      (i, tl.get ⟨i, h⟩) :: getTracksLoop tl amount (i + 1) (ic + 1)
    else getTracksLoop tl amount (i + 1) ic
  else []
termination_by tl.length - i
decreasing_by all_goals omega

/-- Method `get_tracks(amount, from_index)`: up to `amount` enumerated
entries starting at `track_index` (or 0).  Pure read. -/
def get_tracks (s : State) (amount : Int) (from_index : Bool) : List (Nat × Track) × State :=
  let start_index := if s.track_list.length > 0 then (if from_index then s.track_index else 0) else 0
  (if s.track_list.length > 0 then getTracksLoop s.track_list amount start_index 0 else [], s)

/-- Method `next_track_info(jump)` (the spec's `peekAt`): with `jump ≠ 0`
guards only `track_index + jump < len(track_list)` — no lower bound — and
then subscripts with the possibly negative index (wrap-around or
`IndexError` per `pyGet`); with `jump = 0` returns the entry at
`track_index` when in bounds.  Pure read. -/
def next_track_info (s : State) (jump : Int) : Except Unit (Option (Int × Track)) × State :=
  (if jump ≠ 0 then
     if (s.track_index : Int) + jump < (s.track_list.length : Int) then
       match pyGet s.track_list ((s.track_index : Int) + jump) with
       | some t => .ok (some ((s.track_index : Int) + jump, t))
       | none => .error ()
     else .ok none
   else
     if s.track_index < s.track_list.length then
       match s.track_list[s.track_index]? with
       | some t => .ok (some ((s.track_index : Int), t))
       | none => .error ()
     else .ok none,
   s)

/-- Python's `sorted(indexes, reverse=True)`: descending order.  Modelled as
the reverse of an ascending insertion sort — extensionally the same list for
integer keys. -/
def sortDesc (l : List Int) : List Int := (List.insertionSort (· ≤ ·) l).reverse

/-- The deletion loop of `delete`: for each `i` of the (descending) index
list, if `track_index <= i < len(track_list)` holds against the *current*
(shrinking) list, delete `track_list[i]` and record `i`. -/
def deleteLoop (c : Nat) : List Int → List Track → List Int → List Track × List Int
  | [], tl, del => (tl, del)
  | i :: rest, tl, del =>
    if (c : Int) ≤ i ∧ i < (tl.length : Int) then
      deleteLoop c rest (tl.eraseIdx i.toNat) (del ++ [i])
    else deleteLoop c rest tl del

/-- The dictionary returned by `delete`; absent keys are `none`.
(`deleted_indexes` holds the indexes themselves rather than Python's
`str(i)` decimal strings.) -/
structure DeleteResult where
  from? : Option Int
  to? : Option Int
  track_title : Option String
  deleted_indexes : List Int
  deleted_indexes_len : Nat
deriving DecidableEq, Repr

/-- Method `delete(indexes, by_range)`: walks the given indexes in
descending order deleting the qualifying ones, then reports them in
ascending order; `from`/`to` when `by_range`, the prior title (off the
pre-call snapshot `tracks`) when exactly one entry went and not `by_range`;
`none` when nothing qualified. -/
def delete (s : State) (indexes : List Int) (by_range : Bool) : Option DeleteResult × State :=
  let tracks := s.track_list
  let p := deleteLoop s.track_index (sortDesc indexes) s.track_list []
  let deleted_indexes := p.2.reverse
  if 0 < deleted_indexes.length then
    (some
     { from? := if by_range then deleted_indexes.head? else none
       to? := if by_range then deleted_indexes.getLast? else none
       track_title :=
         if by_range then none
         else if deleted_indexes.length = 1 then (pyGet tracks deleted_indexes.headI).map Track.title
         else none
       deleted_indexes := deleted_indexes
       deleted_indexes_len := deleted_indexes.length },
     { s with track_list := p.1 })
  else (none, s)

/-- Spec-side description of the deletion's effect on the entries
("removes exactly those given indexes"): keep every entry whose absolute
position (counted from `k`) is not listed in `S`. -/
def keepFrom (S : List Int) : Nat → List Track → List Track
  | _, [] => []
  | k, t :: ts => if (k : Int) ∈ S then keepFrom S (k + 1) ts else t :: keepFrom S (k + 1) ts

/-- The sublist of `ds` whose elements `i` satisfy `c ≤ i < len`. -/
def dsQual (c len : Nat) (ds : List Int) : List Int :=
  ds.filter (fun i => decide ((c : Int) ≤ i) && decide (i < (len : Int)))

/-- The indexes of `indexes` that qualify for deletion in state `s`
(`track_index <= i < len(track_list)` against the pre-call list), listed in
descending order. -/
def qualIndexes (s : State) (indexes : List Int) : List Int :=
  dsQual s.track_index s.track_list.length (sortDesc indexes)

/-- The engine states reachable by the public operations from a fresh
`PlayList()`.  The transport methods (`play`, `replay`, `pause`, `stop`)
carry the caller-checked precondition that a current track exists, as the
spec's error-handling contract prescribes. -/
inductive Reachable : State → Prop
  | init : Reachable initState
  | add_step {s : State} (o : String) (t : Track) :
      Reachable s → Reachable (add s o t).2
  | add_list_step {s : State} (o : String) (ts : List Track) :
      Reachable s → Reachable (add_list s o ts)
  | clear_step {s : State} : Reachable s → Reachable (clear s).2
  | delete_step {s : State} (idxs : List Int) (br : Bool) :
      Reachable s → Reachable (delete s idxs br).2
  | next_track_step {s : State} (now : ℚ) :
      Reachable s → Reachable (next_track s now).2
  | start_step {s : State} (o : String) (t : Track) (now : ℚ) :
      Reachable s → Reachable (start s o t now).2
  | play_step {s : State} (off now : ℚ) :
      Reachable s → s.current_track ≠ none → Reachable (play s off now).2
  | replay_step {s : State} (now : ℚ) :
      Reachable s → s.current_track ≠ none → Reachable (replay s now).2
  | pause_step {s : State} (off now : ℚ) :
      Reachable s → s.current_track ≠ none → Reachable (pause s off now).2
  | stop_step {s : State} :
      Reachable s → s.current_track ≠ none → Reachable (stop s).2

/-- The data-model invariant on the cursor: `0 ≤ track_index ≤ len(track_list)`
(the lower bound is carried by the `Nat` type). -/
def cursorInv (s : State) : Prop := s.track_index ≤ s.track_list.length

/-- The data-model invariant on the pause flag: paused implies a current
track exists. -/
def pausedInv (s : State) : Prop := s.is_paused = true → s.current_track ≠ none

/-- Sample track used in concrete witnesses and counterexamples. -/
def trackA : Track := ⟨"a", "A", "", 200, 0, 0⟩

/-- A second sample track. -/
def trackB : Track := ⟨"b", "B", "", 150, 0, 0⟩

/-- A third sample track. -/
def trackC : Track := ⟨"c", "C", "", 100, 0, 0⟩

/-- A sample track whose `id` is falsy. -/
def blankIdTrack : Track := ⟨"", "Z", "", 50, 0, 0⟩

/-- One queued track, cursor at 0 (the state after `add`). -/
def oneTrackState : State := ⟨[trackA], 0, none, false⟩

/-- One queued track, cursor 1 = length: the state reached by `add` then
`next_track`, except for the `current`/timing fields which are irrelevant
to the queue claims. -/
def exhaustedState : State := ⟨[trackA], 1, none, false⟩

/-- Three queued tracks, cursor at 0. -/
def threeTrackState : State := ⟨[trackA, trackB, trackC], 0, none, false⟩

/-- A playing (non-paused) state with a current track. -/
def playingState : State := ⟨[trackA], 1, some trackA, false⟩

/-- A paused state with a stored pause snapshot of 5 seconds. -/
def pausedState : State := ⟨[trackA], 1, some { trackA with pause := 5 }, true⟩

/-- A paused state whose stored pause snapshot is negative (as produced by
`pause(offset)` with a negative caller-supplied offset). -/
def negPauseState : State := ⟨[], 0, some { trackA with pause := -1 }, true⟩

lemma add_track_list (s : State) (o : String) (t : Track) :
    (add s o t).2.track_list
      = s.track_list ++ (if t.id ≠ "" then [{ t with owner := o }] else []) := by
  simp only [add]
  split <;> simp_all

lemma add_track_index (s : State) (o : String) (t : Track) :
    (add s o t).2.track_index = s.track_index := by
  simp only [add]; split <;> rfl

lemma add_current_track (s : State) (o : String) (t : Track) :
    (add s o t).2.current_track = s.current_track := by
  simp only [add]; split <;> rfl

lemma add_is_paused (s : State) (o : String) (t : Track) :
    (add s o t).2.is_paused = s.is_paused := by
  simp only [add]; split <;> rfl

lemma foldl_add_track_list (o : String) :
    ∀ (ts : List Track) (s : State),
      (ts.foldl (fun st t => (add st o t).2) s).track_list
        = s.track_list ++ (ts.filter fun t => decide (t.id ≠ "")).map fun t => { t with owner := o }
  | [], s => by simp
  | t :: ts, s => by
    simp only [List.foldl_cons]
    rw [foldl_add_track_list o ts]
    by_cases h : t.id = "" <;> simp [add_track_list, h, List.filter_cons]

lemma foldl_add_track_index (o : String) :
    ∀ (ts : List Track) (s : State),
      (ts.foldl (fun st t => (add st o t).2) s).track_index = s.track_index
  | [], _ => rfl
  | t :: ts, s => by
    simp only [List.foldl_cons]
    rw [foldl_add_track_index o ts, add_track_index]

lemma foldl_add_current_track (o : String) :
    ∀ (ts : List Track) (s : State),
      (ts.foldl (fun st t => (add st o t).2) s).current_track = s.current_track
  | [], _ => rfl
  | t :: ts, s => by
    simp only [List.foldl_cons]
    rw [foldl_add_current_track o ts, add_current_track]

lemma foldl_add_is_paused (o : String) :
    ∀ (ts : List Track) (s : State),
      (ts.foldl (fun st t => (add st o t).2) s).is_paused = s.is_paused
  | [], _ => rfl
  | t :: ts, s => by
    simp only [List.foldl_cons]
    rw [foldl_add_is_paused o ts, add_is_paused]

lemma add_list_track_list (s : State) (o : String) (ts : List Track) :
    (add_list s o ts).track_list
      = s.track_list ++ (ts.filter fun t => decide (t.id ≠ "")).map fun t => { t with owner := o } := by
  cases ts with
  | nil => simp [add_list]
  | cons t ts => simp only [add_list, List.length_cons]; rw [if_pos (by omega)]
                 exact foldl_add_track_list o _ s

lemma add_list_track_index (s : State) (o : String) (ts : List Track) :
    (add_list s o ts).track_index = s.track_index := by
  simp only [add_list]; split
  · exact foldl_add_track_index o ts s
  · rfl

lemma add_list_current_track (s : State) (o : String) (ts : List Track) :
    (add_list s o ts).current_track = s.current_track := by
  simp only [add_list]; split
  · exact foldl_add_current_track o ts s
  · rfl

lemma add_list_is_paused (s : State) (o : String) (ts : List Track) :
    (add_list s o ts).is_paused = s.is_paused := by
  simp only [add_list]; split
  · exact foldl_add_is_paused o ts s
  · rfl

lemma deleteLoop_fst_length (c : Nat) :
    ∀ (ds : List Int) (tl : List Track) (del : List Int),
      c ≤ tl.length → c ≤ (deleteLoop c ds tl del).1.length
  | [], _, _, h => h
  | i :: rest, tl, del, h => by
    simp only [deleteLoop]
    split
    · rename_i hg
      apply deleteLoop_fst_length c rest
      have h2 : i.toNat < tl.length := by omega
      rw [List.length_eraseIdx_of_lt h2]
      omega
    · exact deleteLoop_fst_length c rest tl del h

lemma delete_track_index (s : State) (idxs : List Int) (br : Bool) :
    (delete s idxs br).2.track_index = s.track_index := by
  simp only [delete]; split <;> rfl

lemma delete_current_track (s : State) (idxs : List Int) (br : Bool) :
    (delete s idxs br).2.current_track = s.current_track := by
  simp only [delete]; split <;> rfl

lemma delete_is_paused (s : State) (idxs : List Int) (br : Bool) :
    (delete s idxs br).2.is_paused = s.is_paused := by
  simp only [delete]; split <;> rfl

lemma delete_cursorInv (s : State) (idxs : List Int) (br : Bool)
    (h : cursorInv s) : cursorInv (delete s idxs br).2 := by
  unfold cursorInv at *
  rw [delete_track_index]
  simp only [delete]
  split
  · exact deleteLoop_fst_length _ _ _ _ h
  · exact h

lemma start_queue_frame (s : State) (o : String) (t : Track) (now : ℚ) :
    (start s o t now).2.track_list = s.track_list ∧
      (start s o t now).2.track_index = s.track_index := by
  cases hp : s.is_paused <;> simp [start, hp]

lemma play_queue_frame (s : State) (offset now : ℚ) :
    (play s offset now).2.track_list = s.track_list ∧
      (play s offset now).2.track_index = s.track_index := by
  cases hp : s.is_paused <;> cases hc : s.current_track <;> simp [play, hp, hc]

lemma replay_queue_frame (s : State) (now : ℚ) :
    (replay s now).2.track_list = s.track_list ∧
      (replay s now).2.track_index = s.track_index := by
  cases hp : s.is_paused <;> cases hc : s.current_track <;> simp [replay, hp, hc]

lemma pause_queue_frame (s : State) (offset now : ℚ) :
    (pause s offset now).2.track_list = s.track_list ∧
      (pause s offset now).2.track_index = s.track_index := by
  cases hc : s.current_track
  · simp [pause, hc]
  · by_cases ho : offset ≠ 0 <;> simp [pause, hc, ho]

lemma stop_queue_frame (s : State) :
    (stop s).2.track_list = s.track_list ∧ (stop s).2.track_index = s.track_index := by
  cases hc : s.current_track <;> simp [stop, hc]

lemma next_track_cases (s : State) (now : ℚ) :
    (next_track s now).2 = s ∨
      ∃ t, s.track_list[s.track_index]? = some t ∧
        (next_track s now).2
          = { s with
              track_list := s.track_list.set s.track_index { t with start := now }
              current_track := some { t with start := now }
              track_index := s.track_index + 1 } := by
  simp only [next_track]
  split
  · split
    · cases hg : s.track_list[s.track_index]? with
      | none => simp [hg]
      | some t => right; exact ⟨t, rfl, by simp [hg]⟩
    · left; rfl
  · left; rfl

lemma next_track_cursorInv (s : State) (now : ℚ) (h : cursorInv s) :
    cursorInv (next_track s now).2 := by
  rcases next_track_cases s now with heq | ⟨t, hg, heq⟩
  · rwa [heq]
  · have hlt : s.track_index < s.track_list.length := (List.getElem?_eq_some.mp hg).1
    unfold cursorInv
    rw [heq]
    simp [List.length_set]
    omega

lemma next_track_index_mono (s : State) (now : ℚ) :
    s.track_index ≤ (next_track s now).2.track_index := by
  rcases next_track_cases s now with heq | ⟨t, _, heq⟩
  · rw [heq]
  · rw [heq]
    simp

lemma clear_cursorInv (s : State) (h : cursorInv s) : cursorInv (clear s).2 := by
  unfold cursorInv at *
  simp only [clear]
  split
  · simp
  · exact h

lemma add_cursorInv (s : State) (o : String) (t : Track) (h : cursorInv s) :
    cursorInv (add s o t).2 := by
  unfold cursorInv at *
  rw [add_track_index, add_track_list]
  simp only [List.length_append]
  omega

lemma add_list_cursorInv (s : State) (o : String) (ts : List Track) (h : cursorInv s) :
    cursorInv (add_list s o ts) := by
  unfold cursorInv at *
  rw [add_list_track_index, add_list_track_list]
  simp only [List.length_append]
  omega

lemma start_cursorInv (s : State) (o : String) (t : Track) (now : ℚ) (h : cursorInv s) :
    cursorInv (start s o t now).2 := by
  unfold cursorInv at *
  rw [(start_queue_frame s o t now).1, (start_queue_frame s o t now).2]
  exact h

lemma play_cursorInv (s : State) (offset now : ℚ) (h : cursorInv s) :
    cursorInv (play s offset now).2 := by
  unfold cursorInv at *
  rw [(play_queue_frame s offset now).1, (play_queue_frame s offset now).2]
  exact h

lemma replay_cursorInv (s : State) (now : ℚ) (h : cursorInv s) :
    cursorInv (replay s now).2 := by
  unfold cursorInv at *
  rw [(replay_queue_frame s now).1, (replay_queue_frame s now).2]
  exact h

lemma pause_cursorInv (s : State) (offset now : ℚ) (h : cursorInv s) :
    cursorInv (pause s offset now).2 := by
  unfold cursorInv at *
  rw [(pause_queue_frame s offset now).1, (pause_queue_frame s offset now).2]
  exact h

lemma stop_cursorInv (s : State) (h : cursorInv s) : cursorInv (stop s).2 := by
  unfold cursorInv at *
  rw [(stop_queue_frame s).1, (stop_queue_frame s).2]
  exact h

/-- The cursor bound `track_index ≤ len(track_list)` holds in every
reachable state. -/
lemma reachable_cursorInv {s : State} (h : Reachable s) : cursorInv s := by
  induction h with
  | init => exact Nat.le_refl 0
  | add_step o t _ ih => exact add_cursorInv _ o t ih
  | add_list_step o ts _ ih => exact add_list_cursorInv _ o ts ih
  | clear_step _ ih => exact clear_cursorInv _ ih
  | delete_step idxs br _ ih => exact delete_cursorInv _ idxs br ih
  | next_track_step now _ ih => exact next_track_cursorInv _ now ih
  | start_step o t now _ ih => exact start_cursorInv _ o t now ih
  | play_step off now _ _ ih => exact play_cursorInv _ off now ih
  | replay_step now _ _ ih => exact replay_cursorInv _ now ih
  | pause_step off now _ _ ih => exact pause_cursorInv _ off now ih
  | stop_step _ _ ih => exact stop_cursorInv _ ih

lemma add_pausedInv (s : State) (o : String) (t : Track) (h : pausedInv s) :
    pausedInv (add s o t).2 := by
  unfold pausedInv at *
  rw [add_is_paused, add_current_track]
  exact h

lemma add_list_pausedInv (s : State) (o : String) (ts : List Track) (h : pausedInv s) :
    pausedInv (add_list s o ts) := by
  unfold pausedInv at *
  rw [add_list_is_paused, add_list_current_track]
  exact h

lemma clear_pausedInv (s : State) (h : pausedInv s) : pausedInv (clear s).2 := by
  unfold pausedInv at *
  simp only [clear]
  split
  · simpa using h
  · exact h

lemma delete_pausedInv (s : State) (idxs : List Int) (br : Bool) (h : pausedInv s) :
    pausedInv (delete s idxs br).2 := by
  unfold pausedInv at *
  rw [delete_is_paused, delete_current_track]
  exact h

lemma next_track_pausedInv (s : State) (now : ℚ) (h : pausedInv s) :
    pausedInv (next_track s now).2 := by
  rcases next_track_cases s now with heq | ⟨t, _, heq⟩
  · rwa [heq]
  · unfold pausedInv
    rw [heq]
    simp

lemma start_pausedInv (s : State) (o : String) (t : Track) (now : ℚ) :
    pausedInv (start s o t now).2 := by
  unfold pausedInv
  cases hp : s.is_paused <;> simp [start, hp]

lemma play_pausedInv (s : State) (offset now : ℚ) : pausedInv (play s offset now).2 := by
  unfold pausedInv
  cases hp : s.is_paused <;> cases hc : s.current_track <;> simp [play, hp, hc]

lemma replay_pausedInv (s : State) (now : ℚ) : pausedInv (replay s now).2 := by
  unfold pausedInv
  cases hp : s.is_paused <;> cases hc : s.current_track <;> simp [replay, hp, hc]

lemma stop_pausedInv (s : State) : pausedInv (stop s).2 := by
  unfold pausedInv
  cases hc : s.current_track <;> simp [stop, hc]

lemma pause_pausedInv (s : State) (offset now : ℚ) (hc : s.current_track ≠ none) :
    pausedInv (pause s offset now).2 := by
  unfold pausedInv
  cases hcur : s.current_track with
  | none => exact absurd hcur hc
  | some c => by_cases ho : offset ≠ 0 <;> simp [pause, hcur, ho]

lemma keepFrom_of_lt : ∀ (ts : List Track) (k : Nat) (S : List Int),
    (∀ r ∈ S, r < (k : Int)) → keepFrom S k ts = ts
  | [], _, _, _ => rfl
  | t :: ts, k, S, h => by
    have hk : ¬ ((k : Int) ∈ S) := fun hmem => absurd (h _ hmem) (by omega)
    have hrec : ∀ r ∈ S, r < ((k + 1 : Nat) : Int) := fun r hr => by
      have := h r hr; push_cast; push_cast at this; omega
    simp only [keepFrom, if_neg hk, keepFrom_of_lt ts (k + 1) S hrec]

lemma keepFrom_eraseIdx : ∀ (ts : List Track) (q k : Nat) (S : List Int),
    q < ts.length → (∀ r ∈ S, r < ((k + q : Nat) : Int)) →
    keepFrom S k (ts.eraseIdx q) = keepFrom (((k + q : Nat) : Int) :: S) k ts
  | [], q, _, _, hq, _ => absurd hq (by simp)
  | t :: ts, 0, k, S, _, hS => by
    have h1 : keepFrom S k ((t :: ts).eraseIdx 0) = ts :=
      keepFrom_of_lt ts k S (by simpa using hS)
    have hmem : ((k : Int)) ∈ (((k + 0 : Nat) : Int) :: S) := by simp
    have h2 : keepFrom (((k + 0 : Nat) : Int) :: S) k (t :: ts) = ts := by
      simp only [keepFrom, if_pos hmem]
      exact keepFrom_of_lt ts (k + 1) _ (by
        intro r hr
        rcases List.mem_cons.mp hr with h | h
        · subst h; push_cast; omega
        · have := hS r h; push_cast; push_cast at this; omega)
    rw [h1, h2]
  | t :: ts, q + 1, k, S, hq, hS => by
    have hq' : q < ts.length := by simpa using hq
    have hS' : ∀ r ∈ S, r < (((k + 1) + q : Nat) : Int) := by
      intro r hr; have := hS r hr; push_cast; push_cast at this; omega
    have ih := keepFrom_eraseIdx ts q (k + 1) S hq' hS'
    have hcast : ((((k + 1) + q : Nat)) : Int) = (((k + (q + 1) : Nat)) : Int) := by push_cast; omega
    rw [hcast] at ih
    have hne : ((k : Int)) ∈ (((k + (q + 1) : Nat) : Int) :: S) ↔ ((k : Int)) ∈ S := by
      simp only [List.mem_cons]
      constructor
      · rintro (h | h)
        · exfalso; push_cast at h; omega
        · exact h
      · exact fun h => Or.inr h
    show keepFrom S k (t :: ts.eraseIdx q) = keepFrom (((k + (q + 1) : Nat) : Int) :: S) k (t :: ts)
    by_cases hk : ((k : Int)) ∈ S
    · simp only [keepFrom, if_pos hk, if_pos (hne.mpr hk), ih]
    · simp only [keepFrom, if_neg hk, if_neg (fun h => hk (hne.mp h)), ih]

lemma eraseFold_eq_keepFrom : ∀ (qs : List Int) (tl : List Track),
    qs.Pairwise (· > ·) → (∀ q ∈ qs, 0 ≤ q ∧ q < (tl.length : Int)) →
    List.foldl (fun l (i : Int) => l.eraseIdx i.toNat) tl qs = keepFrom qs 0 tl
  | [], tl, _, _ => keepFrom_of_lt tl 0 [] (by simp) |>.symm ▸ rfl
  | q :: rest, tl, hp, hb => by
    have hq := hb q (List.mem_cons_self q rest)
    have hqlt : q.toNat < tl.length := by omega
    have hrest_gt : ∀ j ∈ rest, j < q := (List.pairwise_cons.mp hp).1
    have hrest_pw : rest.Pairwise (· > ·) := (List.pairwise_cons.mp hp).2
    have hrest_b : ∀ j ∈ rest, 0 ≤ j ∧ j < ((tl.eraseIdx q.toNat).length : Int) := by
      intro j hj
      have hjq := hrest_gt j hj
      have := hb j (List.mem_cons_of_mem q hj)
      rw [List.length_eraseIdx_of_lt hqlt]
      omega
    have ih := eraseFold_eq_keepFrom rest (tl.eraseIdx q.toNat) hrest_pw hrest_b
    have herase := keepFrom_eraseIdx tl q.toNat 0 rest hqlt (by
      intro r hr; have := hrest_gt r hr; push_cast; omega)
    have hcast : (((0 + q.toNat : Nat)) : Int) = q := by push_cast; omega
    rw [hcast] at herase
    simp only [List.foldl_cons]
    rw [ih, herase]

lemma deleteLoop_eq (c : Nat) : ∀ (ds : List Int) (tl : List Track) (del : List Int),
    ds.Pairwise (· > ·) →
    deleteLoop c ds tl del
      = (List.foldl (fun l (i : Int) => l.eraseIdx i.toNat) tl (dsQual c tl.length ds),
         del ++ dsQual c tl.length ds)
  | [], tl, del, _ => by simp [deleteLoop, dsQual]
  | i :: rest, tl, del, hp => by
    have hrest_gt : ∀ j ∈ rest, j < i := (List.pairwise_cons.mp hp).1
    have hrest_pw : rest.Pairwise (· > ·) := (List.pairwise_cons.mp hp).2
    simp only [deleteLoop]
    split
    · rename_i hg
      have hqlt : i.toNat < tl.length := by
        have h1 := hg.1; have h2 := hg.2; omega
      have ih := deleteLoop_eq c rest (tl.eraseIdx i.toNat) (del ++ [i]) hrest_pw
      have hlen : (tl.eraseIdx i.toNat).length = tl.length - 1 := List.length_eraseIdx_of_lt hqlt
      have hfc : dsQual c (tl.eraseIdx i.toNat).length rest = dsQual c tl.length rest := by
        unfold dsQual
        apply List.filter_congr
        intro j hj
        have hji := hrest_gt j hj
        have h2 := hg.2
        congr 1
        rw [decide_eq_decide]
        rw [hlen]
        omega
      rw [ih, hfc]
      have hpred : (decide ((c : Int) ≤ i) && decide (i < (tl.length : Int))) = true := by
        simp only [Bool.and_eq_true, decide_eq_true_eq]
        exact hg
      have hq : dsQual c tl.length (i :: rest) = i :: dsQual c tl.length rest := by
        unfold dsQual
        rw [List.filter_cons, if_pos hpred]
      rw [hq]
      simp [List.append_assoc]
    · rename_i hg
      have hpred : (decide ((c : Int) ≤ i) && decide (i < (tl.length : Int))) = false := by
        simp only [Bool.and_eq_false_iff, decide_eq_false_iff_not]
        omega
      have hq : dsQual c tl.length (i :: rest) = dsQual c tl.length rest := by
        unfold dsQual
        rw [List.filter_cons, if_neg (by simp [hpred])]
      rw [deleteLoop_eq c rest tl del hrest_pw, hq]

lemma pairwise_lt_of_le_nodup {l : List Int} (hle : l.Pairwise (· ≤ ·)) (hnd : l.Nodup) :
    l.Pairwise (· < ·) :=
  (hle.and hnd).imp fun h => lt_of_le_of_ne h.1 h.2

lemma sortDesc_perm (l : List Int) : List.Perm (sortDesc l) l :=
  (List.reverse_perm _).trans (List.perm_insertionSort _ l)

lemma sortDesc_pairwise_gt {l : List Int} (h : l.Nodup) : (sortDesc l).Pairwise (· > ·) := by
  have hs : (List.insertionSort (· ≤ ·) l).Pairwise (· ≤ ·) := List.sorted_insertionSort _ l
  have hnd : (List.insertionSort (· ≤ ·) l).Nodup := (List.perm_insertionSort _ l).symm.nodup h
  exact List.pairwise_reverse.mpr (pairwise_lt_of_le_nodup hs hnd)

lemma elapsed_state_id (s : State) (now : ℚ) : (elapsed s now).2 = s := by
  unfold elapsed
  cases s.current_track with
  | none => rfl
  | some c =>
    by_cases hp : s.is_paused
    · simp [hp]
    · simp only [hp, if_false, Bool.false_eq_true]
      split <;> rfl

lemma remaining_state_id (s : State) (now : ℚ) : (remaining s now).2 = s := by
  unfold remaining
  cases s.current_track <;> rfl

lemma has_active_track_state_id (s : State) (now : ℚ) : (has_active_track s now).2 = s := by
  unfold has_active_track
  split
  · rfl
  · split
    · rfl
    · split <;> rfl

/-- The pause-flag invariant `is_paused → current_track ≠ none` holds in
every reachable state. -/
lemma reachable_pausedInv {s : State} (h : Reachable s) : pausedInv s := by
  induction h with
  | init => exact fun h => by simp [initState] at h
  | add_step o t _ ih => exact add_pausedInv _ o t ih
  | add_list_step o ts _ ih => exact add_list_pausedInv _ o ts ih
  | clear_step _ ih => exact clear_pausedInv _ ih
  | delete_step idxs br _ ih => exact delete_pausedInv _ idxs br ih
  | next_track_step now _ ih => exact next_track_pausedInv _ now ih
  | start_step o t now _ _ => exact start_pausedInv _ o t now
  | play_step off now _ _ _ => exact play_pausedInv _ off now
  | replay_step now _ _ _ => exact replay_pausedInv _ now
  | pause_step off now _ hc _ => exact pause_pausedInv _ off now hc
  | stop_step _ _ _ => exact stop_pausedInv _

/-- C3: for every reachable state, `clear()` returns true iff `entries` was
non-empty immediately before the call, and after the call `entries` is
always empty and `cursor` is always 0. -/
theorem clear_correct (s : State) (h : Reachable s) :
    ((clear s).1 = true ↔ s.track_list ≠ []) ∧
      (clear s).2.track_list = [] ∧ (clear s).2.track_index = 0 := by
  have hinv := reachable_cursorInv h
  unfold cursorInv at hinv
  cases hl : s.track_list with
  | nil =>
    have hlen : s.track_list.length = 0 := by rw [hl]; rfl
    refine ⟨by simp [clear, hlen, hl], by simp [clear, hlen, hl], by simp [clear, hlen]; omega⟩
  | cons t ts =>
    have hlen : s.track_list.length > 0 := by rw [hl]; simp
    exact ⟨by simp [clear, hlen], by simp [clear, hlen], by simp [clear, hlen]⟩

/-- Witness for C3 at the initial state. -/
theorem clear_correct_witness :
    ((clear initState).1 = true ↔ initState.track_list ≠ []) ∧
      (clear initState).2.track_list = [] ∧ (clear initState).2.track_index = 0 :=
  clear_correct initState Reachable.init

/-- C7: `remaining` is 0 when there is no current track, and otherwise
equals `current.time - elapsed` — in particular for every non-paused active
track sampled before expiry. -/
theorem remaining_spec (s : State) (now : ℚ) :
    (s.current_track = none → (remaining s now).1 = 0) ∧
      (∀ c, s.current_track = some c → (remaining s now).1 = c.time - (elapsed s now).1) := by
  constructor
  · intro h; simp [remaining, h]
  · intro c h; simp [remaining, h]

/-- Witness for C7: the empty engine and a playing state. -/
theorem remaining_spec_witness :
    (remaining initState 3).1 = 0 ∧
      (remaining playingState 3).1 = trackA.time - (elapsed playingState 3).1 :=
  ⟨(remaining_spec initState 3).1 rfl, (remaining_spec playingState 3).2 trackA rfl⟩

/-- C4 counterexample: in a paused state whose stored pause snapshot is
negative (producible by `pause(offset)` with a negative offset), `elapsed`
returns that negative snapshot, refuting "elapsed never returns a negative
value". -/
theorem elapsed_negative_cex :
    (elapsed negPauseState 0).1 = -1 ∧ (elapsed negPauseState 0).1 < 0 := by
  refine ⟨rfl, ?_⟩
  norm_num [elapsed, negPauseState, trackA]

/-- C4 (amended): `elapsed` is 0 with no current track; equals the stored
`current.pause` when paused; otherwise equals `now - current.start` except
that it is 0 when that difference exceeds `current.time`; and it is
non-negative provided the stored pause snapshot is non-negative (when
paused) and `current.start ≤ now` (when not paused) — unconditional
non-negativity fails (see the counterexample). -/
theorem elapsed_spec (s : State) (now : ℚ) :
    (s.current_track = none → (elapsed s now).1 = 0) ∧
    (∀ c, s.current_track = some c → s.is_paused = true → (elapsed s now).1 = c.pause) ∧
    (∀ c, s.current_track = some c → s.is_paused = false →
      (elapsed s now).1 = if now - c.start > c.time then 0 else now - c.start) ∧
    (s.current_track = none → 0 ≤ (elapsed s now).1) ∧
    (∀ c, s.current_track = some c → s.is_paused = true → 0 ≤ c.pause →
      0 ≤ (elapsed s now).1) ∧
    (∀ c, s.current_track = some c → s.is_paused = false → c.start ≤ now →
      0 ≤ (elapsed s now).1) := by
  refine ⟨?_, ?_, ?_, ?_, ?_, ?_⟩
  · intro h; simp [elapsed, h]
  · intro c h hp; simp [elapsed, h, hp]
  · intro c h hp
    simp only [elapsed, h, hp, if_false, Bool.false_eq_true, gt_iff_lt]
    split <;> rfl
  · intro h; simp [elapsed, h]
  · intro c h hp hpos; simpa [elapsed, h, hp] using hpos
  · intro c h hp hle
    simp only [elapsed, h, hp, if_false, Bool.false_eq_true]
    split
    · exact le_refl 0
    · show (0 : ℚ) ≤ now - c.start
      linarith

/-- Witness for C4 at the empty engine and a paused state. -/
theorem elapsed_spec_witness :
    (elapsed initState 3).1 = 0 ∧ 0 ≤ (elapsed pausedState 3).1 :=
  ⟨(elapsed_spec initState 3).1 rfl,
   (elapsed_spec pausedState 3).2.2.2.2.1 _ rfl rfl (by norm_num [trackA])⟩

/-- C8: `add` rejects a track with falsy id leaving `entries` unchanged,
otherwise stamps the owner, appends, and returns the track; `add_list`
applies the same rule per element in order, so N valid tracks grow the list
by exactly N. -/
theorem add_spec (s : State) (o : String) (track : Track) :
    (track.id = "" → add s o track = (none, s)) ∧
    (track.id ≠ "" →
      add s o track
        = (some { track with owner := o },
           { s with track_list := s.track_list ++ [{ track with owner := o }] })) ∧
    (∀ ts : List Track,
      (add_list s o ts).track_list
        = s.track_list
            ++ (ts.filter fun t => decide (t.id ≠ "")).map fun t => { t with owner := o }) ∧
    (∀ ts : List Track, (∀ t ∈ ts, t.id ≠ "") →
      (add_list s o ts).track_list.length = s.track_list.length + ts.length) := by
  refine ⟨?_, ?_, ?_, ?_⟩
  · intro h; simp [add, h]
  · intro h; simp [add, h]
  · intro ts; exact add_list_track_list s o ts
  · intro ts h
    rw [add_list_track_list]
    have hf : ts.filter (fun t => decide (t.id ≠ "")) = ts :=
      List.filter_eq_self.mpr fun t ht => by simpa using h t ht
    rw [hf]
    simp

/-- Witness for C8: a falsy-id rejection and a two-track batch. -/
theorem add_spec_witness :
    add initState "u" blankIdTrack = (none, initState) ∧
      (add_list initState "u" [trackA, trackB]).track_list.length
        = initState.track_list.length + 2 :=
  ⟨(add_spec initState "u" blankIdTrack).1 rfl,
   (add_spec initState "u" trackA).2.2.2 [trackA, trackB] (by decide)⟩

/-- C10: the query operations (`is_last_track`, `queue`, `get_tracks`,
`next_track_info`, and likewise `elapsed`, `remaining`,
`has_active_track`) leave the engine state unchanged, while the
read-style property `next_track` does mutate it (it advances the cursor of
a one-track state from 0 to 1). -/
theorem queries_pure (s : State) (now : ℚ) (amount : Int) (fi : Bool) (jump : Int) :
    ((is_last_track s).2 = s ∧ (queue s).2 = s ∧ (get_tracks s amount fi).2 = s ∧
      (next_track_info s jump).2 = s ∧ (elapsed s now).2 = s ∧ (remaining s now).2 = s ∧
      (has_active_track s now).2 = s) ∧
    (next_track oneTrackState 3).2.track_index = 1 ∧ oneTrackState.track_index = 0 := by
  refine ⟨⟨rfl, rfl, rfl, rfl, elapsed_state_id s now, remaining_state_id s now,
    has_active_track_state_id s now⟩, rfl, rfl⟩

/-- C9: in every reachable state `paused = true` implies a current track
exists, and every operation preserves this invariant (the transport methods
`play`, `replay`, `pause`, `stop` under the caller-checked precondition that
a current track exists, which is how the reachable set is generated). -/
theorem paused_invariant :
    (∀ s, Reachable s → s.is_paused = true → s.current_track ≠ none) ∧
    (∀ s o t, pausedInv s → pausedInv (add s o t).2) ∧
    (∀ s o ts, pausedInv s → pausedInv (add_list s o ts)) ∧
    (∀ s, pausedInv s → pausedInv (clear s).2) ∧
    (∀ s idxs br, pausedInv s → pausedInv (delete s idxs br).2) ∧
    (∀ s now, pausedInv s → pausedInv (next_track s now).2) ∧
    (∀ s o t now, pausedInv (start s o t now).2) ∧
    (∀ s off now, pausedInv (play s off now).2) ∧
    (∀ s now, pausedInv (replay s now).2) ∧
    (∀ s off now, s.current_track ≠ none → pausedInv (pause s off now).2) ∧
    (∀ s, pausedInv (stop s).2) :=
  ⟨fun _ h => reachable_pausedInv h,
   fun s o t h => add_pausedInv s o t h,
   fun s o ts h => add_list_pausedInv s o ts h,
   fun s h => clear_pausedInv s h,
   fun s idxs br h => delete_pausedInv s idxs br h,
   fun s now h => next_track_pausedInv s now h,
   fun s o t now => start_pausedInv s o t now,
   fun s off now => play_pausedInv s off now,
   fun s now => replay_pausedInv s now,
   fun s off now hc => pause_pausedInv s off now hc,
   fun s => stop_pausedInv s⟩

/-- Witness for C9: a reachable paused state (init, start, pause) has a
current track. -/
theorem paused_invariant_witness :
    ((pause (start initState "u" trackA 0).2 0 5).2).current_track ≠ none :=
  paused_invariant.1 _
    (Reachable.pause_step 0 5 (Reachable.start_step "u" trackA 0 Reachable.init)
      (by simp [start, initState]))
    (by rfl)

/-- C6: in every reachable state `0 ≤ cursor ≤ len(entries)` holds (the
lower bound is carried by the `Nat` modelling of the cursor); every
operation preserves the bound, and no operation other than `clear()` ever
decreases the cursor. -/
theorem cursor_bound :
    (∀ s, Reachable s → 0 ≤ s.track_index ∧ s.track_index ≤ s.track_list.length) ∧
    (∀ s o t, cursorInv s → cursorInv (add s o t).2) ∧
    (∀ s o ts, cursorInv s → cursorInv (add_list s o ts)) ∧
    (∀ s, cursorInv s → cursorInv (clear s).2) ∧
    (∀ s idxs br, cursorInv s → cursorInv (delete s idxs br).2) ∧
    (∀ s now, cursorInv s → cursorInv (next_track s now).2) ∧
    (∀ s o t now, cursorInv s → cursorInv (start s o t now).2) ∧
    (∀ s off now, cursorInv s → cursorInv (play s off now).2) ∧
    (∀ s now, cursorInv s → cursorInv (replay s now).2) ∧
    (∀ s off now, cursorInv s → cursorInv (pause s off now).2) ∧
    (∀ s, cursorInv s → cursorInv (stop s).2) ∧
    (∀ s o t, s.track_index ≤ (add s o t).2.track_index) ∧
    (∀ s o ts, s.track_index ≤ (add_list s o ts).track_index) ∧
    (∀ s idxs br, s.track_index ≤ (delete s idxs br).2.track_index) ∧
    (∀ s now, s.track_index ≤ (next_track s now).2.track_index) ∧
    (∀ s o t now, s.track_index ≤ (start s o t now).2.track_index) ∧
    (∀ s off now, s.track_index ≤ (play s off now).2.track_index) ∧
    (∀ s now, s.track_index ≤ (replay s now).2.track_index) ∧
    (∀ s off now, s.track_index ≤ (pause s off now).2.track_index) ∧
    (∀ s, s.track_index ≤ (stop s).2.track_index) :=
  ⟨fun _ h => ⟨Nat.zero_le _, reachable_cursorInv h⟩,
   fun s o t h => add_cursorInv s o t h,
   fun s o ts h => add_list_cursorInv s o ts h,
   fun s h => clear_cursorInv s h,
   fun s idxs br h => delete_cursorInv s idxs br h,
   fun s now h => next_track_cursorInv s now h,
   fun s o t now h => start_cursorInv s o t now h,
   fun s off now h => play_cursorInv s off now h,
   fun s now h => replay_cursorInv s now h,
   fun s off now h => pause_cursorInv s off now h,
   fun s h => stop_cursorInv s h,
   fun s o t => Nat.le_of_eq (add_track_index s o t).symm,
   fun s o ts => Nat.le_of_eq (add_list_track_index s o ts).symm,
   fun s idxs br => Nat.le_of_eq (delete_track_index s idxs br).symm,
   fun s now => next_track_index_mono s now,
   fun s o t now => Nat.le_of_eq (start_queue_frame s o t now).2.symm,
   fun s off now => Nat.le_of_eq (play_queue_frame s off now).2.symm,
   fun s now => Nat.le_of_eq (replay_queue_frame s now).2.symm,
   fun s off now => Nat.le_of_eq (pause_queue_frame s off now).2.symm,
   fun s => Nat.le_of_eq (stop_queue_frame s).2.symm⟩

/-- Witness for C6 at the initial state and a concrete `add`. -/
theorem cursor_bound_witness :
    (0 ≤ initState.track_index ∧ initState.track_index ≤ initState.track_list.length) ∧
      cursorInv (add oneTrackState "u" trackB).2 :=
  ⟨cursor_bound.1 initState Reachable.init,
   cursor_bound.2.1 oneTrackState "u" trackB (by exact Nat.zero_le _)⟩

/-- C1 counterexample: `exhaustedState` (one entry, cursor 1) satisfies the
claim's guard `cursor ≤ len(entries)` on a non-empty list, yet `advance()`
raises an `IndexError` on the fetch instead of fetching in bounds —
refuting "the fetch being in bounds". -/
theorem next_track_cex :
    exhaustedState.track_index ≤ exhaustedState.track_list.length ∧
      next_track exhaustedState 7 = (.error (), exhaustedState) :=
  ⟨by decide, rfl⟩

/-- C1 (amended): on an empty list `advance()` yields none without failing;
when `cursor < len(entries)` it fetches `entries[cursor]` in bounds, sets
it as current, stamps its `start` with the clock, increments the cursor and
returns the track; when the list is non-empty and `cursor = len(entries)`
(permitted by the source's `cursor <= len` guard) the fetch is out of
bounds and raises, leaving the state unchanged; when `cursor > len(entries)`
it yields none. -/
theorem next_track_spec (s : State) (now : ℚ) :
    (s.track_list = [] → next_track s now = (.ok none, s)) ∧
    (∀ t, s.track_list[s.track_index]? = some t →
      next_track s now
        = (.ok (some { t with start := now }),
           { s with
             track_list := s.track_list.set s.track_index { t with start := now }
             current_track := some { t with start := now }
             track_index := s.track_index + 1 })) ∧
    (s.track_list ≠ [] → s.track_index = s.track_list.length →
      next_track s now = (.error (), s)) ∧
    (s.track_list.length < s.track_index → next_track s now = (.ok none, s)) := by
  refine ⟨?_, ?_, ?_, ?_⟩
  · intro h; simp [next_track, h]
  · intro t h
    have hlt : s.track_index < s.track_list.length := (List.getElem?_eq_some.mp h).1
    simp only [next_track, h, gt_iff_lt]
    rw [if_pos (by omega), if_pos (by omega)]
  · intro hne hlen
    have hl : 0 < s.track_list.length := List.length_pos.mpr hne
    have hnone : s.track_list[s.track_index]? = none :=
      List.getElem?_eq_none_iff.mpr (by omega)
    simp only [next_track, hnone, gt_iff_lt]
    rw [if_pos (by omega), if_pos (by omega)]
  · intro h
    by_cases hl : s.track_list.length > 0
    · simp only [next_track]
      rw [if_pos hl, if_neg (by omega)]
    · simp only [next_track]
      rw [if_neg hl]

/-- Witness for C1: the empty engine yields none; a one-track engine at
cursor 0 advances. -/
theorem next_track_spec_witness :
    next_track initState 5 = (.ok none, initState) ∧
      next_track oneTrackState 7
        = (.ok (some { trackA with start := 7 }),
           { oneTrackState with
               track_list := [trackA].set 0 { trackA with start := 7 }
               current_track := some { trackA with start := 7 }
               track_index := 1 }) :=
  ⟨(next_track_spec initState 5).1 rfl, (next_track_spec oneTrackState 7).2.1 trackA rfl⟩

/-- C5 counterexample: with one entry and cursor 0, `peekAt(-1)` addresses
index −1 — out of bounds, which the claim says must yield none — yet the
unguarded subscript wraps around and returns the last entry. -/
theorem next_track_info_cex :
    (next_track_info oneTrackState (-1)).1 = .ok (some (-1, trackA)) ∧
      (oneTrackState.track_index : Int) + (-1) < 0 :=
  ⟨rfl, by decide⟩

/-- C5 (amended): `peekAt` never mutates the state; with `jump ≠ 0` it
yields none when `cursor + jump ≥ len(entries)`, returns
`(cursor+jump, entries[cursor+jump])` when `0 ≤ cursor+jump < len`, returns
the wrap-around entry `entries[len + cursor + jump]` (not none) when
`-len ≤ cursor+jump < 0`, and raises an `IndexError` when
`cursor + jump < -len`; with `jump = 0` it returns `(cursor,
entries[cursor])` when `cursor < len` and none otherwise. -/
theorem next_track_info_spec (s : State) (jump : Int) :
    ((next_track_info s jump).2 = s) ∧
    (jump ≠ 0 → (s.track_list.length : Int) ≤ (s.track_index : Int) + jump →
      (next_track_info s jump).1 = .ok none) ∧
    (jump ≠ 0 → 0 ≤ (s.track_index : Int) + jump →
      (s.track_index : Int) + jump < (s.track_list.length : Int) →
      ∀ t, s.track_list[((s.track_index : Int) + jump).toNat]? = some t →
        (next_track_info s jump).1 = .ok (some ((s.track_index : Int) + jump, t))) ∧
    (jump ≠ 0 → (s.track_index : Int) + jump < 0 →
      0 ≤ (s.track_index : Int) + jump + (s.track_list.length : Int) →
      ∀ t, s.track_list[((s.track_index : Int) + jump + (s.track_list.length : Int)).toNat]?
          = some t →
        (next_track_info s jump).1 = .ok (some ((s.track_index : Int) + jump, t))) ∧
    (jump ≠ 0 → (s.track_index : Int) + jump + (s.track_list.length : Int) < 0 →
      (next_track_info s jump).1 = .error ()) ∧
    (jump = 0 → ∀ t, s.track_list[s.track_index]? = some t →
      (next_track_info s jump).1 = .ok (some ((s.track_index : Int), t))) ∧
    (jump = 0 → s.track_list.length ≤ s.track_index →
      (next_track_info s jump).1 = .ok none) := by
  refine ⟨rfl, ?_, ?_, ?_, ?_, ?_, ?_⟩
  · intro hj hge
    simp only [next_track_info, if_pos hj]
    rw [if_neg (by omega)]
  · intro hj h0 hlt t ht
    simp only [next_track_info, if_pos hj]
    rw [if_pos hlt]
    unfold pyGet
    rw [if_pos h0, ht]
  · intro hj hneg h0 t ht
    simp only [next_track_info, if_pos hj]
    rw [if_pos (by omega)]
    unfold pyGet
    rw [if_neg (by omega), if_pos h0, ht]
  · intro hj hlow
    simp only [next_track_info, if_pos hj]
    rw [if_pos (by omega)]
    unfold pyGet
    rw [if_neg (by omega), if_neg (by omega)]
  · intro hj t ht
    have hlt : s.track_index < s.track_list.length := (List.getElem?_eq_some.mp ht).1
    simp only [next_track_info, hj, ht]
    simp [hlt]
  · intro hj hge
    simp only [next_track_info, hj]
    simp only [if_neg (by omega : ¬ s.track_index < s.track_list.length)]
    simp

/-- Witness for C5: in-bounds lookahead and out-of-bounds lookahead on a
three-track engine. -/
theorem next_track_info_spec_witness :
    (next_track_info threeTrackState 2).1 = .ok (some (2, trackC)) ∧
      (next_track_info threeTrackState 5).1 = .ok none :=
  ⟨(next_track_info_spec threeTrackState 2).2.2.1 (by decide) (by decide) (by decide) trackC rfl,
   (next_track_info_spec threeTrackState 5).2.1 (by decide) (by decide)⟩

/-- C2 counterexample: on entries `[A, B, C]` with cursor 0, the duplicate
index list `[1, 1]` has `{1}` as its set of qualifying given indexes, yet
`delete` removes TWO entries (the shrinking-length recheck passes for the
duplicate), leaving one entry and reporting `deleted_indexes_len = 2` —
refuting the claim as quantified over every input list. -/
theorem delete_cex :
    ((delete threeTrackState [1, 1] false).1.map DeleteResult.deleted_indexes_len = some 2) ∧
      (delete threeTrackState [1, 1] false).2.track_list = [trackA] :=
  ⟨rfl, rfl⟩

/-- C2 (amended): for duplicate-free index lists (the spec's interface
types `indexes` as a `set<int>`), `delete` removes exactly the given
indexes `i` with `cursor ≤ i < len(entries)` (never an index `< cursor`),
processing them in descending order; it returns none iff no index
qualified; on success `deleted_indexes` is the qualifying set in ascending
order with `deleted_indexes_len` its count, `from`/`to` are its first and
last elements when `byRange`, and `track_title` is the deleted entry's
prior title when not `byRange` and exactly one index was deleted. -/
theorem delete_spec (s : State) (indexes : List Int) (br : Bool) (hnd : indexes.Nodup) :
    ((delete s indexes br).1 = none ↔ qualIndexes s indexes = []) ∧
    ((delete s indexes br).2.track_list = keepFrom (qualIndexes s indexes) 0 s.track_list) ∧
    ((delete s indexes br).2.track_index = s.track_index) ∧
    ((delete s indexes br).2.current_track = s.current_track) ∧
    ((delete s indexes br).2.is_paused = s.is_paused) ∧
    (∀ i, i ∈ qualIndexes s indexes ↔
      (i ∈ indexes ∧ (s.track_index : Int) ≤ i ∧ i < (s.track_list.length : Int))) ∧
    (∀ r, (delete s indexes br).1 = some r →
      r.deleted_indexes = (qualIndexes s indexes).reverse ∧
      r.deleted_indexes.Pairwise (· < ·) ∧
      r.deleted_indexes_len = r.deleted_indexes.length ∧
      (br = true → r.from? = r.deleted_indexes.head? ∧ r.to? = r.deleted_indexes.getLast? ∧
        r.track_title = none) ∧
      (br = false → r.from? = none ∧ r.to? = none ∧
        (∀ d, r.deleted_indexes = [d] →
          r.track_title = (pyGet s.track_list d).map Track.title) ∧
        (r.deleted_indexes.length ≠ 1 → r.track_title = none))) := by
  have hpw : (sortDesc indexes).Pairwise (· > ·) := sortDesc_pairwise_gt hnd
  have hloop := deleteLoop_eq s.track_index (sortDesc indexes) s.track_list [] hpw
  have hqdef : dsQual s.track_index s.track_list.length (sortDesc indexes)
      = qualIndexes s indexes := rfl
  rw [hqdef] at hloop
  have hqpw : (qualIndexes s indexes).Pairwise (· > ·) := hpw.filter _
  have hqb : ∀ q ∈ qualIndexes s indexes, 0 ≤ q ∧ q < (s.track_list.length : Int) := by
    intro q hmemq
    unfold qualIndexes dsQual at hmemq
    have hm := List.mem_filter.mp hmemq
    simp only [Bool.and_eq_true, decide_eq_true_eq] at hm
    omega
  have hfold := eraseFold_eq_keepFrom (qualIndexes s indexes) s.track_list hqpw hqb
  have hmem : ∀ i, i ∈ qualIndexes s indexes ↔
      (i ∈ indexes ∧ (s.track_index : Int) ≤ i ∧ i < (s.track_list.length : Int)) := by
    intro i
    unfold qualIndexes dsQual
    rw [List.mem_filter, (sortDesc_perm indexes).mem_iff]
    simp only [Bool.and_eq_true, decide_eq_true_eq]
  simp only [delete]
  rw [hloop]
  simp only [List.nil_append]
  rw [hfold]
  by_cases hne : qualIndexes s indexes = []
  · have hcond : ¬ 0 < (qualIndexes s indexes).reverse.length := by
      rw [hne]; simp
    rw [if_neg hcond]
    refine ⟨by simp [hne], ?_, rfl, rfl, rfl, hmem, ?_⟩
    · rw [hne]
      exact (keepFrom_of_lt s.track_list 0 [] (by simp)).symm
    · intro r hr
      exact absurd hr (by simp)
  · have hlen : 0 < (qualIndexes s indexes).reverse.length := by
      rw [List.length_reverse]
      exact List.length_pos.mpr hne
    rw [if_pos hlen]
    refine ⟨by simp [hne], rfl, rfl, rfl, rfl, hmem, ?_⟩
    intro r hr
    have hr' := (Option.some.inj hr).symm
    subst hr'
    refine ⟨rfl, List.pairwise_reverse.mpr hqpw, rfl, ?_, ?_⟩
    · intro hbr
      subst hbr
      exact ⟨rfl, rfl, rfl⟩
    · intro hbr
      subst hbr
      refine ⟨rfl, rfl, ?_, ?_⟩
      · intro d hd
        have hd' : (qualIndexes s indexes).reverse = [d] := hd
        have hlen1 : (qualIndexes s indexes).reverse.length = 1 := by rw [hd']; rfl
        show (if (qualIndexes s indexes).reverse.length = 1 then
            Option.map Track.title (pyGet s.track_list (qualIndexes s indexes).reverse.headI)
          else none) = Option.map Track.title (pyGet s.track_list d)
        rw [if_pos hlen1, hd']
        rfl
      · intro h1
        have h1' : (qualIndexes s indexes).reverse.length ≠ 1 := h1
        show (if (qualIndexes s indexes).reverse.length = 1 then
            Option.map Track.title (pyGet s.track_list (qualIndexes s indexes).reverse.headI)
          else none) = none
        rw [if_neg h1']

/-- Witness for C2: deleting indexes 0 and 2 from a three-track queue at
cursor 0. -/
theorem delete_spec_witness :
    (delete threeTrackState [0, 2] false).2.track_list
        = keepFrom (qualIndexes threeTrackState [0, 2]) 0 threeTrackState.track_list ∧
      ((delete threeTrackState [0, 2] false).1 = none ↔
        qualIndexes threeTrackState [0, 2] = []) :=
  ⟨(delete_spec threeTrackState [0, 2] false (by decide)).2.1,
   (delete_spec threeTrackState [0, 2] false (by decide)).1⟩

end PlayList
